import Mathlib

/-!
Verification development for the refermii backend (reddit-scraper.js,
models/Referral.js, server.js).

Shallow embedding conventions:
* MongoDB documents of the `Referral` collection are the structure `Referral`;
  the store is a `List Referral`.
* JavaScript string fields that may be `undefined` or `""` (both falsy) are
  modelled as `String`, with `""` standing for the falsy cases.
* `Date` values are integer timestamps in milliseconds since the Unix epoch,
  in UTC (the model has no timezones or DST).
* The unique index `{ brand: 1, code: 1, link: 1 }` declared in Referral.js is
  modelled by making inserts/updates fail when they would create a second
  record with the same (brand, code, link) triple; a failed write leaves the
  store unchanged (the JS code catches the driver's duplicate-key error).
-/

namespace ReferMii

/-- The `trim: true` schema setter (JavaScript `String.prototype.trim`):
strips whitespace from both ends. -/
def trimStr (s : String) : String :=
  String.mk
    (((s.data.dropWhile Char.isWhitespace).reverse.dropWhile
        Char.isWhitespace).reverse)

/-- A persisted document of the `Referral` collection (models/Referral.js). -/
structure Referral where
  brand : String
  code : String
  link : String
  tags : List String
  postDate : Int
  expirationDate : Int
  isValid : Bool
  lastValidated : Int
deriving Repr, DecidableEq

/-- The (brand, code, link) triple the unique index is declared on. -/
def tripleOf (r : Referral) : String × String × String :=
  (r.brand, r.code, r.link)

/-- `referralSchema.methods.validateCode`: the placeholder always returns
`true` in the source. -/
def validateCode (_r : Referral) : Bool :=
  true

/-- `referralSchema.pre('save')` middleware: when the `code` or `link` path is
modified, set `isValid` from `validateCode` and refresh `lastValidated` to the
current time; otherwise leave the document untouched. -/
def preSaveHook (r : Referral) (modifiedCode modifiedLink : Bool) (now : Int) :
    Referral :=
  if modifiedCode || modifiedLink then
    { r with isValid := validateCode r, lastValidated := now }
  else r

/-- Schema validation of a document: `brand` is required (non-empty) and the
`code`/`link` validators demand that at least one of the two is present. -/
def validateDoc (r : Referral) : Bool :=
  r.brand ≠ "" && (r.code ≠ "" || r.link ≠ "")

/-- `referralSchema.statics.checkDuplicate(brand, code, link)` from
models/Referral.js: with both code and link present, an existing same-brand
record matching either field is a duplicate; with only one present, only that
field is queried; with neither, the check answers `false`. -/
def checkDuplicate (store : List Referral) (brand code link : String) : Bool :=
  if brand = "" then false
  else if code ≠ "" && link ≠ "" then
    store.any (fun r => r.brand = brand && (r.code = code || r.link = link))
  else if code ≠ "" then
    store.any (fun r => r.brand = brand && r.code = code)
  else if link ≠ "" then
    store.any (fun r => r.brand = brand && r.link = link)
  else false

/-- Insert backed by the unique index on (brand, code, link): the insert fails
(`none`, the driver raises a duplicate-key error) when a stored record already
carries the same triple. -/
def insertUnique (store : List Referral) (r : Referral) :
    Option (List Referral) :=
  if store.any (fun s => tripleOf s = tripleOf r) then none
  else some (store ++ [r])

/-- `document.save()` on a newly constructed document: schema validation runs
first, then the pre-save middleware, then the indexed insert.  For a new
document the `code`/`link` paths count as modified when a value was assigned;
a document that passes validation has one of them non-empty, so the hook
fires.  Any failure is reported as `none` (the callers catch the error). -/
def saveNewDoc (store : List Referral) (r : Referral) (now : Int) :
    Option (List Referral) :=
  if validateDoc r then
    insertUnique store (preSaveHook r (r.code ≠ "") (r.link ≠ "") now)
  else none

/-- The extracted referral data handed to `saveReferralToDb` by the scraper
(`expirationDate` is already parsed to a timestamp via `new Date(...)`). -/
structure ReferralData where
  brand : String
  code : String
  link : String
  tags : List String
  postDate : Int
  expirationDate : Int
deriving Repr, DecidableEq

/-- Store accesses performed by one `saveReferralToDb` call. -/
inductive DbOp where
  | dupQuery
  | insertAttempt
deriving Repr, DecidableEq

/-- The duplicate pre-check exactly as `saveReferralToDb` performs it: the
source calls `Referral.checkDuplicate(referralData.brand, referralData.code)`
with only two arguments, so the `link` parameter is `undefined` (falsy,
modelled `""`). -/
def saveDupCheck (store : List Referral) (rd : ReferralData) : Bool :=
  checkDuplicate store rd.brand rd.code ""

/-- `saveReferralToDb(referralData)` from reddit-scraper.js.  Returns the
boolean result, the resulting store, and the list of store accesses made.
Guard: falsy data, falsy brand, or both code and link falsy return `false`
with no store access.  Then the duplicate pre-check, then construction of the
new document (string fields trimmed by the schema setters, `isValid: true`,
`lastValidated: new Date()`), then `referral.save()`; every error thrown by
the save (validation or duplicate key) is caught and yields `false`.

Below, `scraperDoc` is the document `new Referral({...})` the save constructs:
fields from the extracted data through the trimming setters, `isValid: true`,
`lastValidated: new Date()`. -/
def scraperDoc (rd : ReferralData) (now : Int) : Referral :=
  { brand := trimStr rd.brand
    code := trimStr rd.code
    link := trimStr rd.link
    tags := rd.tags.map trimStr
    postDate := rd.postDate
    expirationDate := rd.expirationDate
    isValid := true
    lastValidated := now }

/-- `saveReferralToDb` itself; see the comment on `scraperDoc`. -/
def saveReferralToDb (rdOpt : Option ReferralData) (now : Int)
    (store : List Referral) : Bool × List Referral × List DbOp :=
  match rdOpt with
  | none => (false, store, [])
  | some rd =>
    if rd.brand = "" || (rd.code = "" && rd.link = "") then (false, store, [])
    else if saveDupCheck store rd then (false, store, [.dupQuery])
    else
      match saveNewDoc store (scraperDoc rd now) now with
      | some store2 => (true, store2, [.dupQuery, .insertAttempt])
      | none => (false, store, [.dupQuery, .insertAttempt])

/-- One record's treatment by the validation job in server.js: records matched
by the query `{ expirationDate: { $lt: now }, isValid: true }` get
`isValid = false` assigned and are saved; only the `isValid` path is modified,
so the pre-save middleware leaves `lastValidated` (and everything else)
alone.  Unmatched records are untouched. -/
def sweepOne (now : Int) (r : Referral) : Referral :=
  if r.expirationDate < now && r.isValid then { r with isValid := false }
  else r

/-- `validateExpiredCodes` from server.js: one pass of the hourly expiry
sweep over the store. -/
def validateExpiredCodes (now : Int) (store : List Referral) : List Referral :=
  store.map (sweepOne now)

/-- The filter of `GET /api/referrals`: the query object always contains
`isValid: true` and `expirationDate: { $gt: new Date() }`; a `search`
parameter adds an `$or` of case-insensitive regex matches on brand and tags,
and a `brand` parameter adds a regex match on brand.  `regexMatch pat s` is
the semantics of `new RegExp(pat, 'i').test(s)`, taken as a parameter since
the claims do not depend on regex semantics. -/
def getQueryMatches (now : Int) (search brand : Option String)
    (regexMatch : String → String → Bool) (r : Referral) : Bool :=
  r.isValid && decide (now < r.expirationDate)
    && (match search with
        | none => true
        | some s => regexMatch s r.brand || r.tags.any (regexMatch s))
    && (match brand with
        | none => true
        | some b => regexMatch b r.brand)

/-- Insertion into a list sorted by descending `postDate` (models the
`.sort({ postDate: -1 })` of the list endpoint). -/
def insertByPostDateDesc (r : Referral) : List Referral → List Referral
  | [] => [r]
  | s :: rest =>
    if s.postDate ≤ r.postDate then r :: s :: rest
    else s :: insertByPostDateDesc r rest

/-- Sorting by descending `postDate`. -/
def sortByPostDateDesc : List Referral → List Referral
  | [] => []
  | r :: rest => insertByPostDateDesc r (sortByPostDateDesc rest)

/-- `GET /api/referrals` from server.js: filter the store by the query and
sort by descending post date. -/
def getReferrals (store : List Referral) (now : Int)
    (search brand : Option String) (regexMatch : String → String → Bool) :
    List Referral :=
  sortByPostDateDesc (store.filter (getQueryMatches now search brand regexMatch))

/-- Request body of `POST /api/referrals`.  Absent string fields are `""`
(falsy); fields with schema defaults are `Option`s, `none` meaning absent so
that the mongoose default applies. -/
structure PostBody where
  brand : String
  code : String
  link : String
  tags : List String
  postDate : Option Int
  expirationDate : Int
  isValid : Option Bool
  lastValidated : Option Int
deriving Repr, DecidableEq

/-- `new Referral({...req.body, tags: req.body.tags || []})`: schema setters
trim the string paths; `postDate`, `isValid` and `lastValidated` default to
`Date.now` / `true` / `Date.now` when absent from the body. -/
def docOfBody (b : PostBody) (now : Int) : Referral :=
  { brand := trimStr b.brand
    code := trimStr b.code
    link := trimStr b.link
    tags := b.tags.map trimStr
    postDate := b.postDate.getD now
    expirationDate := b.expirationDate
    isValid := b.isValid.getD true
    lastValidated := b.lastValidated.getD now }

/-- `POST /api/referrals` from server.js: the `validateReferral` middleware
rejects an empty (trimmed) brand, a body with both code and link falsy, and a
duplicate according to the three-argument `checkDuplicate`; a rejected request
answers 400 and leaves the store unchanged.  Otherwise the document is built
from the body and saved; a save error answers 400 with the store unchanged. -/
def postReferral (b : PostBody) (now : Int) (store : List Referral) :
    List Referral :=
  if trimStr b.brand = "" then store
  else if b.code = "" && b.link = "" then store
  else if checkDuplicate store b.brand b.code b.link then store
  else
    match saveNewDoc store (docOfBody b now) now with
    | some store2 => store2
    | none => store

/-- Request body of `PUT /api/referrals/:id`; `none` means the key is absent
from the body, so `Object.keys(req.body)` skips it. -/
structure UpdateBody where
  brand : Option String
  code : Option String
  link : Option String
  tags : Option (List String)
  postDate : Option Int
  expirationDate : Option Int
  isValid : Option Bool
  lastValidated : Option Int
deriving Repr, DecidableEq

/-- The `Object.keys(req.body).forEach(key => referral[key] = req.body[key])`
loop of the PUT handler: every key present in the body overwrites the
document's field, through the trimming schema setters. -/
def applyBody (r : Referral) (b : UpdateBody) : Referral :=
  { brand := (b.brand.map trimStr).getD r.brand
    code := (b.code.map trimStr).getD r.code
    link := (b.link.map trimStr).getD r.link
    tags := (b.tags.map (List.map trimStr)).getD r.tags
    postDate := b.postDate.getD r.postDate
    expirationDate := b.expirationDate.getD r.expirationDate
    isValid := b.isValid.getD r.isValid
    lastValidated := b.lastValidated.getD r.lastValidated }

/-- Does any document other than the one at index `i` carry the triple `t`?
Models the unique-index check performed by the store when an existing
document is written back. -/
def anyOtherShares (store : List Referral) (i : Nat)
    (t : String × String × String) : Bool :=
  match store, i with
  | [], _ => false
  | _ :: rest, 0 => rest.any (fun s => tripleOf s = t)
  | r :: rest, j + 1 => (tripleOf r = t) || anyOtherShares rest j t

/-- `document.save()` on the already-stored document at index `i`, after its
fields were reassigned: schema validation, then the pre-save middleware (the
`code`/`link` paths count as modified only when the assignment changed their
value), then the indexed write-back, which fails when another document holds
the same (brand, code, link) triple. -/
def saveExistingDoc (store : List Referral) (i : Nat) (r2 : Referral)
    (modC modL : Bool) (now : Int) : Option (List Referral) :=
  if validateDoc r2 then
    let r3 := preSaveHook r2 modC modL now
    if anyOtherShares store i (tripleOf r3) then none
    else some (store.set i r3)
  else none

/-- `PUT /api/referrals/:id` from server.js, with the document's position `i`
standing for its id.  The `validateReferral` middleware runs first (same
checks as for POST, against the raw body values); then the document is looked
up (404 when absent leaves the store unchanged), its fields are overwritten
from the body, and it is saved; errors answer 400 with the store unchanged. -/
def putReferral (i : Nat) (b : UpdateBody) (now : Int)
    (store : List Referral) : List Referral :=
  if trimStr (b.brand.getD "") = "" then store
  else if (b.code.getD "") = "" && (b.link.getD "") = "" then store
  else if checkDuplicate store (b.brand.getD "") (b.code.getD "")
      (b.link.getD "") then store
  else
    match store[i]? with
    | none => store
    | some r =>
      let r2 := applyBody r b
      let modC := match b.code with
        | some c => decide (trimStr c ≠ r.code)
        | none => false
      let modL := match b.link with
        | some l => decide (trimStr l ≠ r.link)
        | none => false
      match saveExistingDoc store i r2 modC modL now with
      | some store2 => store2
      | none => store

/-- The store-writing operations of the system: the pipeline's
`saveReferralToDb`, the POST endpoint's insert, and the PUT endpoint's
update. -/
inductive StoreWrite where
  | pipelineSave (rd : Option ReferralData) (now : Int)
  | apiInsert (b : PostBody) (now : Int)
  | apiUpdate (i : Nat) (b : UpdateBody) (now : Int)

/-- The store resulting from one write operation. -/
def applyWrite : StoreWrite → List Referral → List Referral
  | .pipelineSave rd now, store => (saveReferralToDb rd now store).2.1
  | .apiInsert b now, store => postReferral b now store
  | .apiUpdate i b now, store => putReferral i b now store

/-- No two stored documents share the same (brand, code, link) triple. -/
def distinctTriples (store : List Referral) : Prop :=
  ∀ i j, (hi : i < store.length) → (hj : j < store.length) → i ≠ j →
    tripleOf store[i] ≠ tripleOf store[j]

/-- A decoded JSON value; numbers are kept as their source lexeme (only
structural acceptance matters to the program, never numeric value). -/
inductive Json where
  | null
  | bool (b : Bool)
  | num (lexeme : String)
  | str (s : String)
  | arr (elems : List Json)
  | obj (members : List (String × Json))

def isJsonWs (c : Char) : Bool :=
  c = ' ' || c = '\t' || c = '\n' || c = '\r'

def skipWs : List Char → List Char
  | [] => []
  | c :: rest => if isJsonWs c then skipWs rest else c :: rest

def isDigitCh (c : Char) : Bool := '0' ≤ c && c ≤ '9'

def isHexDigitCh (c : Char) : Bool :=
  isDigitCh c || ('a' ≤ c && c ≤ 'f') || ('A' ≤ c && c ≤ 'F')

def hexVal (c : Char) : Nat :=
  if isDigitCh c then c.toNat - '0'.toNat
  else if 'a' ≤ c && c ≤ 'f' then c.toNat - 'a'.toNat + 10
  else if 'A' ≤ c && c ≤ 'F' then c.toNat - 'A'.toNat + 10
  else 0

/-- The character denoted by a single-character string escape, if valid. -/
def escFor (c : Char) : Option Char :=
  if c = '"' then some '"'
  else if c = '\\' then some '\\'
  else if c = '/' then some '/'
  else if c = 'b' then some (Char.ofNat 8)
  else if c = 'f' then some (Char.ofNat 12)
  else if c = 'n' then some '\n'
  else if c = 'r' then some '\r'
  else if c = 't' then some '\t'
  else none

/-- Body of a JSON string literal after the opening quote: returns the decoded
characters and the input after the closing quote.  Raw control characters and
invalid escapes are rejected, as `JSON.parse` rejects them. -/
def parseStrChars : Nat → List Char → Option (List Char × List Char)
  | 0, _ => none
  | _ + 1, [] => none
  | fuel + 1, c :: rest =>
    if c = '"' then some ([], rest)
    else if c = '\\' then
      match rest with
      | [] => none
      | e :: rest2 =>
        if e = 'u' then
          match rest2 with
          | h1 :: h2 :: h3 :: h4 :: rest3 =>
            if isHexDigitCh h1 && isHexDigitCh h2 && isHexDigitCh h3
                && isHexDigitCh h4 then
              (parseStrChars fuel rest3).map (fun p =>
                (Char.ofNat (((hexVal h1 * 16 + hexVal h2) * 16 + hexVal h3)
                  * 16 + hexVal h4) :: p.1, p.2))
            else none
          | _ => none
        else
          match escFor e with
          | some d => (parseStrChars fuel rest2).map (fun p => (d :: p.1, p.2))
          | none => none
    else if c.toNat < 32 then none
    else (parseStrChars fuel rest).map (fun p => (c :: p.1, p.2))

/-- Optional exponent part of a JSON number; `acc` is the lexeme so far. -/
def parseExpPart (acc : List Char) (cs : List Char) :
    Option (List Char × List Char) :=
  match cs with
  | [] => some (acc, [])
  | e :: t =>
    if e = 'e' || e = 'E' then
      let sg : List Char × List Char := match t with
        | '+' :: u => (['+'], u)
        | '-' :: u => (['-'], u)
        | _ => ([], t)
      match sg.2 with
      | d :: _ =>
        if isDigitCh d then
          some (acc ++ e :: sg.1 ++ sg.2.takeWhile isDigitCh,
            sg.2.dropWhile isDigitCh)
        else none
      | [] => none
    else some (acc, cs)

/-- Optional fraction then exponent part of a JSON number. -/
def parseFracExp (acc : List Char) (cs : List Char) :
    Option (List Char × List Char) :=
  match cs with
  | '.' :: t =>
    (match t with
     | d :: _ =>
       if isDigitCh d then
         parseExpPart (acc ++ '.' :: t.takeWhile isDigitCh)
           (t.dropWhile isDigitCh)
       else none
     | [] => none)
  | _ => parseExpPart acc cs

/-- A JSON number lexeme: optional minus, integer part without leading zeros,
optional fraction, optional exponent. -/
def parseNumberLex (cs : List Char) : Option (List Char × List Char) :=
  let sg : List Char × List Char := match cs with
    | '-' :: t => (['-'], t)
    | _ => ([], cs)
  match sg.2 with
  | [] => none
  | d :: t =>
    if d = '0' then parseFracExp (sg.1 ++ ['0']) t
    else if isDigitCh d then
      parseFracExp (sg.1 ++ d :: t.takeWhile isDigitCh) (t.dropWhile isDigitCh)
    else none

mutual

/-- One JSON value, by recursive descent with explicit fuel; returns the value
and the remaining input. -/
def parseValue : Nat → List Char → Option (Json × List Char)
  | 0, _ => none
  | fuel + 1, cs =>
    match skipWs cs with
    | [] => none
    | c :: rest =>
      if c = '"' then
        (parseStrChars (rest.length + 1) rest).map (fun p =>
          (Json.str (String.mk p.1), p.2))
      else if c = '{' then parseMembersStart fuel rest
      else if c = '[' then parseElemsStart fuel rest
      else if c = 't' then
        match rest with
        | 'r' :: 'u' :: 'e' :: r2 => some (Json.bool true, r2)
        | _ => none
      else if c = 'f' then
        match rest with
        | 'a' :: 'l' :: 's' :: 'e' :: r2 => some (Json.bool false, r2)
        | _ => none
      else if c = 'n' then
        match rest with
        | 'u' :: 'l' :: 'l' :: r2 => some (Json.null, r2)
        | _ => none
      else if c = '-' || isDigitCh c then
        (parseNumberLex (c :: rest)).map (fun p =>
          (Json.num (String.mk p.1), p.2))
      else none

/-- Object body right after the opening brace. -/
def parseMembersStart : Nat → List Char → Option (Json × List Char)
  | 0, _ => none
  | fuel + 1, cs =>
    match skipWs cs with
    | '}' :: rest => some (Json.obj [], rest)
    | _ => parseMembers fuel cs []

/-- One or more `"key": value` members separated by commas, then the closing
brace. -/
def parseMembers : Nat → List Char → List (String × Json) →
    Option (Json × List Char)
  | 0, _, _ => none
  | fuel + 1, cs, acc =>
    match skipWs cs with
    | '"' :: rest =>
      (match parseStrChars (rest.length + 1) rest with
       | none => none
       | some (key, rest2) =>
         match skipWs rest2 with
         | ':' :: rest3 =>
           (match parseValue fuel rest3 with
            | none => none
            | some (v, rest4) =>
              let acc2 := acc ++ [(String.mk key, v)]
              match skipWs rest4 with
              | ',' :: rest5 => parseMembers fuel rest5 acc2
              | '}' :: rest5 => some (Json.obj acc2, rest5)
              | _ => none)
         | _ => none)
    | _ => none

/-- Array body right after the opening bracket. -/
def parseElemsStart : Nat → List Char → Option (Json × List Char)
  | 0, _ => none
  | fuel + 1, cs =>
    match skipWs cs with
    | ']' :: rest => some (Json.arr [], rest)
    | _ => parseElems fuel cs []

/-- One or more array elements separated by commas, then the closing
bracket. -/
def parseElems : Nat → List Char → List Json → Option (Json × List Char)
  | 0, _, _ => none
  | fuel + 1, cs, acc =>
    match parseValue fuel cs with
    | none => none
    | some (v, rest) =>
      let acc2 := acc ++ [v]
      match skipWs rest with
      | ',' :: rest2 => parseElems fuel rest2 acc2
      | ']' :: rest2 => some (Json.arr acc2, rest2)
      | _ => none

end

/-- `JSON.parse` on a character list: one value, then only whitespace may
remain.  The fuel bound is generous; every nesting level consumes input. -/
def parseJson (cs : List Char) : Option Json :=
  match parseValue (cs.length * 4 + 4) cs with
  | some (v, rest) => if skipWs rest = [] then some v else none
  | none => none

/-- The prefix of `cs` that ends at the last closing brace, when one exists. -/
def upToLastClose : List Char → Option (List Char)
  | [] => none
  | c :: rest =>
    match upToLastClose rest with
    | some t => some (c :: t)
    | none => if c = '}' then some [c] else none

/-- The text matched by the source's regex `(\{[\s\S]*\})`: from the first
opening brace, greedily to the last closing brace of the whole reply; `none`
when the reply has no such span. -/
def greedyBraceRegion : List Char → Option (List Char)
  | [] => none
  | c :: rest =>
    if c = '{' then
      match upToLastClose rest with
      | some t => some (c :: t)
      | none => none
    else greedyBraceRegion rest

/-- Modelled from the spec: "locating the first balanced `{...}` region" of
the reply.  The source does not contain this algorithm (it uses the greedy
regex above); this definition follows the spec's words, counting brace depth
from the first opening brace, for comparison with `greedyBraceRegion`. -/
def balancedScan (depth : Nat) (acc : List Char) : List Char → Option (List Char)
  | [] => none
  | c :: rest =>
    if c = '{' then balancedScan (depth + 1) (acc ++ [c]) rest
    else if c = '}' then
      if depth = 1 then some (acc ++ [c])
      else balancedScan (depth - 1) (acc ++ [c]) rest
    else balancedScan depth (acc ++ [c]) rest

/-- Modelled from the spec: the first balanced `{...}` region of the reply. -/
def firstBalancedRegion : List Char → Option (List Char)
  | [] => none
  | c :: rest =>
    if c = '{' then balancedScan 1 [c] rest else firstBalancedRegion rest

/-- Property access on a decoded value (`JSON.parse` keeps the last of
duplicate keys). -/
def jlookup (j : Json) (k : String) : Option Json :=
  match j with
  | .obj kvs => ((kvs.reverse).find? (fun p => p.1 = k)).map (fun p => p.2)
  | _ => none

/-- Does a number lexeme denote zero (every mantissa digit is 0)? -/
def numLexZero (lex : String) : Bool :=
  (lex.data.takeWhile (fun c => c ≠ 'e' && c ≠ 'E')).all
    (fun c => c = '0' || c = '-' || c = '.')

/-- JavaScript truthiness of a decoded JSON value. -/
def jsTruthy : Json → Bool
  | .null => false
  | .bool b => b
  | .num lex => !numLexZero lex
  | .str s => s != ""
  | .arr _ => true
  | .obj _ => true

def msPerDay : Int := 86400000

/-- The UTC calendar day (days since the epoch) of a timestamp: the date part
of `Date.prototype.toISOString` at date-only precision. -/
def dayOfTimestamp (t : Int) : Int := t / msPerDay

/-- `const d = new Date(); d.setDate(d.getDate() + 30)` at timestamp `now`:
in the UTC model, 30 calendar days are exactly `30 * msPerDay` ms. -/
def defaultExpiryTs (now : Int) : Int := now + 30 * msPerDay

/-- The `expirationDate` field of the returned extraction: either the truthy
decoded value kept verbatim, or the synthesized default — the calendar day
(date-only, as rendered by `toISOString().split('T')[0]`) of now + 30 days. -/
inductive ExpirationField where
  | fromModel (j : Json)
  | synthesizedDay (day : Int)

/-- A Reddit post as consumed by `extractPostDetails`. -/
structure RawPost where
  title : String
  selftext : String
  url : String
  id : String
  permalink : String
  created_utc : Int
deriving Repr, DecidableEq

/-- The record returned by a successful extraction: the decoded object spread
together with the normalized expiration and the post-derived fields. -/
structure ExtractedData where
  data : Json
  expirationDate : ExpirationField
  postDate : Int
  redditId : String
  redditPermalink : String

/-- `extractPostDetails` from reddit-scraper.js, as a function of the model's
reply text: match the reply against `(\{[\s\S]*\})`, `JSON.parse` the match
(`null` on no match or parse error), then default a falsy `expirationDate` to
today + 30 days, and attach `postDate` (seconds → ms), `redditId` and
`redditPermalink` from the post. -/
def extractPostDetails (responseText : String) (now : Int) (post : RawPost) :
    Option ExtractedData :=
  match greedyBraceRegion responseText.data with
  | none => none
  | some region =>
    match parseJson region with
    | none => none
    | some j =>
      let exp :=
        match jlookup j "expirationDate" with
        | some v =>
          if jsTruthy v then ExpirationField.fromModel v
          else ExpirationField.synthesizedDay (dayOfTimestamp (defaultExpiryTs now))
        | none => ExpirationField.synthesizedDay (dayOfTimestamp (defaultExpiryTs now))
      some
        { data := j
          expirationDate := exp
          postDate := post.created_utc * 1000
          redditId := post.id
          redditPermalink := post.permalink }

/-- One observable event of the batch pipeline: an Extraction Client
invocation, or an explicit `setTimeout` pause in milliseconds. -/
inductive Ev (α : Type) where
  | call (p : α)
  | wait (ms : Nat)
deriving Repr, DecidableEq

/-- `BATCH_DELAY = Math.ceil(60000 / GEMINI_RATE_LIMIT)`. -/
def BATCH_DELAY (rateLimit : Nat) : Nat := (60000 + rateLimit - 1) / rateLimit

/-- The event trace of `processBatchWithGemini(posts)`: the Extraction Client
is called on every post in order, and after each call except the batch's last
(`if (processedCount < posts.length)`) the loop sleeps `BATCH_DELAY` ms. -/
def processBatchWithGemini (rateLimit : Nat) : List α → List (Ev α)
  | [] => []
  | p :: rest =>
    Ev.call p ::
      (match rest with
       | [] => []
       | _ :: _ =>
         Ev.wait (BATCH_DELAY rateLimit) :: processBatchWithGemini rateLimit rest)

/-- The event trace of `processPostsInBatches(allPosts)`: slices of
`batchSize` posts go through `processBatchWithGemini`, with a 5000 ms pause
between consecutive slices (`if (i + GEMINI_BATCH_SIZE < allPosts.length)`)
and none after the last.  The per-batch database saves pause nothing and are
not traced.  With `batchSize = 0` the source loops forever over empty slices;
the model returns `[]` there and all theorems assume `1 ≤ batchSize`.

The loop is written with explicit fuel counting its remaining iterations; every
iteration consumes at least one post, so `posts.length` fuel is always
enough. -/
def processPostsInBatchesGo (rateLimit batchSize : Nat) :
    Nat → List α → List (Ev α)
  | 0, _ => []
  | _, [] => []
  | fuel + 1, posts =>
    if posts.length ≤ batchSize then processBatchWithGemini rateLimit posts
    else
      processBatchWithGemini rateLimit (posts.take batchSize)
        ++ Ev.wait 5000
          :: processPostsInBatchesGo rateLimit batchSize fuel
              (posts.drop batchSize)

/-- The event trace of `processPostsInBatches(allPosts)`. -/
def processPostsInBatches (rateLimit batchSize : Nat) (posts : List α) :
    List (Ev α) :=
  if batchSize = 0 then []
  else processPostsInBatchesGo rateLimit batchSize posts.length posts

/-- The posts on which the Extraction Client was invoked, in order. -/
def callsOf : List (Ev α) → List α
  | [] => []
  | .call p :: rest => p :: callsOf rest
  | .wait _ :: rest => callsOf rest

/-- Helper for `callGaps`: `acc` is the pause accumulated since the previous
invocation; pauses after the last invocation are dropped. -/
def gapsFrom (acc : Nat) : List (Ev α) → List Nat
  | [] => []
  | .wait d :: rest => gapsFrom (acc + d) rest
  | .call _ :: rest => acc :: gapsFrom 0 rest

/-- The total pause between each pair of consecutive Extraction Client
invocations of a trace. -/
def callGaps : List (Ev α) → List Nat
  | [] => []
  | .wait _ :: rest => callGaps rest
  | .call _ :: rest => gapsFrom 0 rest

/-- Is the event an Extraction Client invocation? -/
def isCall : Ev α → Bool
  | .call _ => true
  | .wait _ => false

/-- The number of stored records carrying a given (brand, code, link)
triple. -/
def countTriple (store : List Referral) (t : String × String × String) : Nat :=
  (store.filter (fun r => tripleOf r = t)).length

/-- C7: for every candidate whose brand is empty, or whose code and link are
both empty, `saveReferralToDb` returns false immediately, leaves the store
unchanged, and performs no store access — neither the duplicate query nor an
insert. -/
theorem c7_save_rejects_ineligible_without_store_access
    (rd : ReferralData) (now : Int) (store : List Referral)
    (h : rd.brand = "" ∨ (rd.code = "" ∧ rd.link = "")) :
    saveReferralToDb (some rd) now store = (false, store, []) := by
  unfold saveReferralToDb
  rcases h with h | ⟨h1, h2⟩
  · simp [h]
  · simp [h1, h2]

/-- Witness for C7 at a concrete ineligible candidate (empty brand). -/
theorem c7_witness :
    saveReferralToDb (some ⟨"", "CODE9", "", [], 0, 0⟩) 3 [] = (false, [], []) :=
  c7_save_rejects_ineligible_without_store_access ⟨"", "CODE9", "", [], 0, 0⟩
    3 [] (Or.inl rfl)

/-- C10: whenever the `code` or `link` path counts as modified — which holds
in particular for every newly created record, since a record passing
validation has one of them set — the pre-save middleware forces
`isValid := true` (`validateCode` always answers true) and
`lastValidated := now`, regardless of the values the caller supplied; hence
an update changing code or link re-marks an invalidated record as valid. -/
theorem c10_preSaveHook_revalidates (r : Referral) (modC modL : Bool)
    (now : Int) (h : (modC || modL) = true) :
    preSaveHook r modC modL now
      = { r with isValid := true, lastValidated := now } := by
  unfold preSaveHook validateCode
  simp [h]

/-- Witness for C10: an invalidated record whose code was modified is
re-marked valid and restamped at the save time. -/
theorem c10_witness :
    preSaveHook ⟨"b", "c", "", [], 0, 0, false, 0⟩ true false 5
      = ⟨"b", "c", "", [], 0, 0, true, 5⟩ :=
  c10_preSaveHook_revalidates ⟨"b", "c", "", [], 0, 0, false, 0⟩ true false 5 rfl

/-- Store for the C1 counterexample: one record with brand "acme", a code,
and link "http". -/
def c1Store : List Referral := [⟨"acme", "x", "http", [], 0, 9, true, 0⟩]

/-- Candidate for the C1 counterexample: same brand, no code, the same
link. -/
def c1Cand : ReferralData := ⟨"acme", "", "http", [], 0, 9⟩

/-- Counterexample to C1.  The claim says the save operation's duplicate
pre-check flags a link-only candidate whose link matches an existing
same-brand record.  The model's `checkDuplicate`, given all three fields,
does flag it (first conjunct) — but `saveReferralToDb` passes only two
arguments, so its actual pre-check answers false (second conjunct) and the
save even inserts a second same-brand same-link record (third conjunct). -/
theorem c1_counterexample :
    checkDuplicate c1Store c1Cand.brand c1Cand.code c1Cand.link = true ∧
    saveDupCheck c1Store c1Cand = false ∧
    (saveReferralToDb (some c1Cand) 5 c1Store).1 = true := by decide

/-- C1 amended: the duplicate pre-check performed by the save operation
reports a duplicate exactly when the candidate's brand and code are both
non-empty and the store holds a same-brand record with the same code; the
candidate's link is never consulted, so a candidate carrying only a link is
never flagged. -/
theorem c1_amended (store : List Referral) (rd : ReferralData) :
    saveDupCheck store rd
      = (decide (rd.brand ≠ "") && decide (rd.code ≠ "")
          && store.any (fun r => r.brand = rd.brand && r.code = rd.code)) := by
  unfold saveDupCheck checkDuplicate
  by_cases hb : rd.brand = "" <;> by_cases hc : rd.code = "" <;> simp [hb, hc]

/-- Record for the C2 counterexample: expired, valid, last validated at 7. -/
def c2Rec : Referral := ⟨"acme", "x", "", [], 0, 0, true, 7⟩

/-- Counterexample to C2: one pass of the sweeper at time 5 over an expired
valid record flips `isValid` to false but leaves `lastValidated` at 7 — it is
not refreshed to the time of the pass, because the pre-save middleware only
touches `lastValidated` when code or link was modified. -/
theorem c2_counterexample :
    (validateExpiredCodes 5 [c2Rec]).map Referral.isValid = [false] ∧
    (validateExpiredCodes 5 [c2Rec]).map Referral.lastValidated = [7] ∧
    (7 : Int) ≠ 5 := by decide

/-- C2 amended: for every stored record with `expirationDate` strictly before
the pass time and `isValid` true, one pass of the sweeper persists exactly
the flip of `isValid` to false; `lastValidated` and every other field are
unchanged. -/
theorem c2_amended (now : Int) (store : List Referral) (i : Nat)
    (hi : i < store.length)
    (hexp : (store.get ⟨i, hi⟩).expirationDate < now)
    (hval : (store.get ⟨i, hi⟩).isValid = true) :
    (validateExpiredCodes now store).get
        ⟨i, by simpa [validateExpiredCodes] using hi⟩
      = { store.get ⟨i, hi⟩ with isValid := false } := by
  have h1 : (validateExpiredCodes now store).get
      ⟨i, by simpa [validateExpiredCodes] using hi⟩
      = sweepOne now (store.get ⟨i, hi⟩) := by
    simp [validateExpiredCodes]
  rw [h1]
  have hexp2 : store[i].expirationDate < now := hexp
  have hval2 : store[i].isValid = true := hval
  simp [sweepOne, hexp2, hval2]

/-- Store for the C2 amended witness. -/
def c2wStore : List Referral := [⟨"zed", "k", "", [], 0, 2, true, 1⟩]

/-- Witness for the amended C2 at a concrete expired record. -/
theorem c2_amended_witness :
    (validateExpiredCodes 9 c2wStore).get
        ⟨0, by simp [validateExpiredCodes, c2wStore]⟩
      = { c2wStore.get ⟨0, by simp [c2wStore]⟩ with isValid := false } :=
  c2_amended 9 c2wStore 0 (by simp [c2wStore]) (by decide) (by decide)

/-- Synthesizing the default expiry lands exactly 30 calendar days after the
extraction-time date: the timestamp moves by 30 whole days, so its UTC day
number moves by exactly 30. -/
theorem dayOfTimestamp_defaultExpiry (now : Int) :
    dayOfTimestamp (defaultExpiryTs now) = dayOfTimestamp now + 30 := by
  unfold dayOfTimestamp defaultExpiryTs msPerDay
  rw [Int.add_mul_ediv_right _ _ (by norm_num : (86400000 : Int) ≠ 0)]

/-- C6: when the decoded extraction object has no `expirationDate` member,
the record returned by the Extraction Client carries the synthesized default:
the calendar day (date-only, no time component) of the extraction time plus
30 days. -/
theorem c6_extract_defaults_expiration (rt : String) (now : Int)
    (post : RawPost) (ed : ExtractedData)
    (h1 : extractPostDetails rt now post = some ed)
    (h2 : jlookup ed.data "expirationDate" = none) :
    ed.expirationDate
      = ExpirationField.synthesizedDay (dayOfTimestamp now + 30) := by
  unfold extractPostDetails at h1
  split at h1
  · exact absurd h1 (by simp)
  · split at h1
    · exact absurd h1 (by simp)
    · simp only [Option.some.injEq] at h1
      subst h1
      simp only at h2
      simp only [h2]
      rw [dayOfTimestamp_defaultExpiry]

/-- Post for the C6 witness. -/
def c6Post : RawPost := ⟨"t", "s", "u", "p1", "/r/x/p1", 0⟩

/-- Model reply for the C6 witness: a JSON object without expirationDate. -/
def c6Reply : String := "\x7b\"brand\":\"acme\"\x7d"

/-- The record the C6 witness extraction returns. -/
def c6Ed : ExtractedData :=
  ⟨Json.obj [("brand", Json.str "acme")], ExpirationField.synthesizedDay 30,
    0, "p1", "/r/x/p1"⟩

/-- Witness for C6 at a concrete reply lacking expirationDate, extracted at
time 0: the expiration comes out as day 30. -/
theorem c6_witness :
    extractPostDetails c6Reply 0 c6Post = some c6Ed ∧
    jlookup c6Ed.data "expirationDate" = none ∧
    c6Ed.expirationDate = ExpirationField.synthesizedDay (dayOfTimestamp 0 + 30) :=
  ⟨rfl, rfl, c6_extract_defaults_expiration c6Reply 0 c6Post c6Ed rfl rfl⟩

/-- Membership in the insertion step of the post-date sort. -/
theorem mem_insertByPostDateDesc {x r : Referral} {l : List Referral} :
    x ∈ insertByPostDateDesc r l ↔ x = r ∨ x ∈ l := by
  induction l with
  | nil => simp [insertByPostDateDesc]
  | cons s rest ih =>
    unfold insertByPostDateDesc
    by_cases hle : s.postDate ≤ r.postDate
    · simp [hle]
    · simp [hle, ih]
      tauto

/-- Sorting by descending post date neither adds nor removes records. -/
theorem mem_sortByPostDateDesc {x : Referral} {l : List Referral} :
    x ∈ sortByPostDateDesc l ↔ x ∈ l := by
  induction l with
  | nil => simp [sortByPostDateDesc]
  | cons s rest ih => simp [sortByPostDateDesc, mem_insertByPostDateDesc, ih]

/-- C9: every record returned by `GET /api/referrals` has `isValid` true and
`expirationDate` strictly after the query time, whatever search and brand
filters were supplied — those only conjoin further conditions onto the base
query. -/
theorem c9_getReferrals_valid_unexpired (store : List Referral) (now : Int)
    (search brand : Option String) (rm : String → String → Bool) (r : Referral)
    (h : r ∈ getReferrals store now search brand rm) :
    r.isValid = true ∧ now < r.expirationDate := by
  unfold getReferrals at h
  rw [mem_sortByPostDateDesc] at h
  have hq := (List.mem_filter.mp h).2
  simp only [getQueryMatches, Bool.and_eq_true, decide_eq_true_eq] at hq
  exact ⟨hq.1.1.1, hq.1.1.2⟩

/-- Record for the C9 witness. -/
def c9Rec : Referral := ⟨"acme", "x", "", ["t1"], 4, 10, true, 0⟩

/-- Witness for C9: a concrete record returned by the list endpoint is valid
and unexpired. -/
theorem c9_witness : c9Rec.isValid = true ∧ (0 : Int) < c9Rec.expirationDate :=
  c9_getReferrals_valid_unexpired [c9Rec] 0 none none (fun _ _ => true) c9Rec
    (by decide)

/-- Post for the C3 counterexample. -/
def c3Post : RawPost := ⟨"t", "s", "u", "p3", "/r/y/p3", 0⟩

/-- Counterexample to C3.  On the reply `"{} {}"` the claim's algorithm —
decode the first balanced region, here `"{}"` — succeeds, but the code's
greedy regex spans first `{` to last `}`, takes `"{} {}"`, fails to decode
it, and the extraction returns null. -/
theorem c3_counterexample :
    extractPostDetails "\x7b\x7d \x7b\x7d" 0 c3Post = none ∧
    ((firstBalancedRegion ("\x7b\x7d \x7b\x7d".data)).bind parseJson).isSome
      = true :=
  ⟨rfl, rfl⟩

/-- C3 amended: the Extraction Client decodes exactly the span of the reply
running from the first opening brace to the last closing brace (the greedy
regex match), and returns null precisely when no such span exists or its
decode fails; post-processing never turns a successful decode into null. -/
theorem c3_amended (rt : String) (now : Int) (post : RawPost) :
    (extractPostDetails rt now post).map ExtractedData.data
      = (greedyBraceRegion rt.data).bind parseJson := by
  unfold extractPostDetails
  cases hg : greedyBraceRegion rt.data with
  | none => simp
  | some region =>
    cases hp : parseJson region with
    | none => simp [hp]
    | some j => simp [hp]

/-- The pre-save middleware does not change the scraper's document: it is
built with `isValid: true` and `lastValidated: now` already. -/
theorem preSaveHook_scraperDoc (rd : ReferralData) (now : Int) (b1 b2 : Bool) :
    preSaveHook (scraperDoc rd now) b1 b2 now = scraperDoc rd now := by
  unfold preSaveHook
  split <;> rfl

/-- The scraper document's index triple is the trimmed candidate triple. -/
theorem tripleOf_scraperDoc (rd : ReferralData) (now : Int) :
    tripleOf (scraperDoc rd now)
      = (trimStr rd.brand, trimStr rd.code, trimStr rd.link) := rfl

/-- With a candidate whose code is falsy, the two-argument duplicate
pre-check answers false against every store. -/
theorem saveDupCheck_code_empty (store : List Referral) (rd : ReferralData)
    (hc : rd.code = "") : saveDupCheck store rd = false := by
  simp [saveDupCheck, checkDuplicate, hc]

/-- `saveReferralToDb` when the eligibility guard passes, the pre-check finds
no duplicate, the document validates, and no stored record carries its
triple: the document is inserted and the call returns true. -/
theorem saveReferralToDb_success (rd : ReferralData) (now : Int)
    (store : List Referral)
    (hguard : (rd.brand = "" || (rd.code = "" && rd.link = "")) = false)
    (hdup : saveDupCheck store rd = false)
    (hval : validateDoc (scraperDoc rd now) = true)
    (hfree : store.any (fun s => tripleOf s = tripleOf (scraperDoc rd now))
      = false) :
    saveReferralToDb (some rd) now store
      = (true, store ++ [scraperDoc rd now], [.dupQuery, .insertAttempt]) := by
  unfold saveReferralToDb saveNewDoc insertUnique
  simp [preSaveHook_scraperDoc, hguard, hdup, hval, hfree]

/-- `saveReferralToDb` when the pre-check reports a duplicate: false, store
unchanged, only the query performed. -/
theorem saveReferralToDb_dup (rd : ReferralData) (now : Int)
    (store : List Referral)
    (hguard : (rd.brand = "" || (rd.code = "" && rd.link = "")) = false)
    (hdup : saveDupCheck store rd = true) :
    saveReferralToDb (some rd) now store = (false, store, [.dupQuery]) := by
  unfold saveReferralToDb
  simp [hguard, hdup]

/-- `saveReferralToDb` when the pre-check misses but the unique index rejects
the insert: the duplicate-key error is caught and the call returns false with
the store unchanged. -/
theorem saveReferralToDb_conflict (rd : ReferralData) (now : Int)
    (store : List Referral)
    (hguard : (rd.brand = "" || (rd.code = "" && rd.link = "")) = false)
    (hdup : saveDupCheck store rd = false)
    (hval : validateDoc (scraperDoc rd now) = true)
    (hclash : store.any (fun s => tripleOf s = tripleOf (scraperDoc rd now))
      = true) :
    saveReferralToDb (some rd) now store
      = (false, store, [.dupQuery, .insertAttempt]) := by
  unfold saveReferralToDb saveNewDoc insertUnique
  simp [preSaveHook_scraperDoc, hguard, hdup, hval, hclash]

/-- Triple counts add over store concatenation. -/
theorem countTriple_append (s1 s2 : List Referral)
    (t : String × String × String) :
    countTriple (s1 ++ s2) t = countTriple s1 t + countTriple s2 t := by
  simp [countTriple, List.filter_append]

/-- Store for the C4 counterexample: an existing same-brand record with the
same code but a different link. -/
def c4Store : List Referral := [⟨"acme", "c", "l1", [], 0, 9, true, 0⟩]

/-- Candidate for the C4 counterexample: same brand and code as the stored
record, different link. -/
def c4Cand : ReferralData := ⟨"acme", "c", "l2", [], 0, 9⟩

/-- Counterexample to C4.  The claim promises that, starting from any store
state, two saves of records carrying one (brand, code, link) triple leave
exactly one stored record with that triple.  Starting from a store holding
("acme", "c", "l1"), both saves of ("acme", "c", "l2") are rejected by the
pre-check (an existing same-brand record has the same code), so zero records
with the saved triple exist afterwards — not one. -/
theorem c4_counterexample :
    countTriple
        ((saveReferralToDb (some c4Cand) 2
            ((saveReferralToDb (some c4Cand) 1 c4Store).2.1)).2.1)
        ("acme", "c", "l2") = 0 := by decide

/-- C4 amended: for a candidate with non-empty brand and non-empty code or
link (fields already trimmed), starting from a store holding no same-brand
record with the candidate's code (when the code is non-empty) and no record
with the candidate's exact triple, calling `save()` twice leaves exactly one
stored record with that triple and the second call returns false. -/
theorem c4_amended (rd : ReferralData) (now1 now2 : Int)
    (store : List Referral)
    (hb : rd.brand ≠ "") (hcl : rd.code ≠ "" ∨ rd.link ≠ "")
    (htb : trimStr rd.brand = rd.brand) (htc : trimStr rd.code = rd.code)
    (htl : trimStr rd.link = rd.link)
    (hnc : rd.code ≠ "" →
      ∀ r ∈ store, ¬(r.brand = rd.brand ∧ r.code = rd.code))
    (hnt : ∀ r ∈ store, tripleOf r ≠ (rd.brand, rd.code, rd.link)) :
    (saveReferralToDb (some rd) now2
        ((saveReferralToDb (some rd) now1 store).2.1)).1 = false ∧
    countTriple
        ((saveReferralToDb (some rd) now2
          ((saveReferralToDb (some rd) now1 store).2.1)).2.1)
        (rd.brand, rd.code, rd.link) = 1 := by
  have htriple : tripleOf (scraperDoc rd now1)
      = (rd.brand, rd.code, rd.link) := by
    rw [tripleOf_scraperDoc, htb, htc, htl]
  have htriple2 : tripleOf (scraperDoc rd now2)
      = (rd.brand, rd.code, rd.link) := by
    rw [tripleOf_scraperDoc, htb, htc, htl]
  have hguard : (rd.brand = "" || (rd.code = "" && rd.link = "")) = false := by
    rcases hcl with h | h <;> simp [hb, h]
  have hval1 : validateDoc (scraperDoc rd now1) = true := by
    unfold validateDoc scraperDoc
    rw [htb, htc, htl]
    rcases hcl with h | h <;> simp [hb, h]
  have hval2 : validateDoc (scraperDoc rd now2) = true := by
    unfold validateDoc scraperDoc
    rw [htb, htc, htl]
    rcases hcl with h | h <;> simp [hb, h]
  have hfree : store.any
      (fun s => tripleOf s = tripleOf (scraperDoc rd now1)) = false := by
    rw [htriple]
    simp only [List.any_eq_false, decide_eq_true_eq]
    exact hnt
  have hcount0 : countTriple store (rd.brand, rd.code, rd.link) = 0 := by
    simp only [countTriple, List.length_eq_zero, List.filter_eq_nil_iff,
      decide_eq_true_eq]
    exact hnt
  have hcount1 : countTriple [scraperDoc rd now1] (rd.brand, rd.code, rd.link)
      = 1 := by
    simp [countTriple, htriple]
  by_cases hc : rd.code = ""
  · -- link-only candidate: the pre-check never fires; the second insert is
    -- rejected by the unique index.
    have hdup1 : saveDupCheck store rd = false := saveDupCheck_code_empty _ _ hc
    have hsave1 := saveReferralToDb_success rd now1 store hguard hdup1 hval1 hfree
    rw [hsave1]
    have hdup2 : saveDupCheck (store ++ [scraperDoc rd now1]) rd = false :=
      saveDupCheck_code_empty _ _ hc
    have hclash : (store ++ [scraperDoc rd now1]).any
        (fun s => tripleOf s = tripleOf (scraperDoc rd now2)) = true := by
      rw [htriple2]
      simp [List.any_append, htriple]
    have hsave2 := saveReferralToDb_conflict rd now2
      (store ++ [scraperDoc rd now1]) hguard hdup2 hval2 hclash
    rw [hsave2]
    refine ⟨rfl, ?_⟩
    rw [countTriple_append, hcount0, hcount1]
  · -- candidate with a code: the second save is stopped by the pre-check
    -- itself, which finds the record inserted by the first save.
    have hdup1 : saveDupCheck store rd = false := by
      unfold saveDupCheck checkDuplicate
      have hany : store.any (fun r => r.brand = rd.brand && r.code = rd.code)
          = false := by
        simp only [List.any_eq_false, Bool.and_eq_true, decide_eq_true_eq,
          not_and]
        intro r hr hbr hcr
        exact hnc hc r hr ⟨hbr, hcr⟩
      simp [hb, hc, hany]
    have hsave1 := saveReferralToDb_success rd now1 store hguard hdup1 hval1 hfree
    rw [hsave1]
    have hdup2 : saveDupCheck (store ++ [scraperDoc rd now1]) rd = true := by
      unfold saveDupCheck checkDuplicate
      simp [hb, hc, List.any_append, scraperDoc, htb, htc]
    have hsave2 := saveReferralToDb_dup rd now2
      (store ++ [scraperDoc rd now1]) hguard hdup2
    rw [hsave2]
    refine ⟨rfl, ?_⟩
    rw [countTriple_append, hcount0, hcount1]

/-- Witness for the amended C4: saving a concrete eligible candidate twice
into an empty store stores it once, and the second call answers false. -/
theorem c4_amended_witness :
    (saveReferralToDb (some ⟨"acme", "c", "l", [], 0, 9⟩) 2
        ((saveReferralToDb (some ⟨"acme", "c", "l", [], 0, 9⟩) 1 []).2.1)).1
      = false ∧
    countTriple
        ((saveReferralToDb (some ⟨"acme", "c", "l", [], 0, 9⟩) 2
          ((saveReferralToDb (some ⟨"acme", "c", "l", [], 0, 9⟩) 1 []).2.1)).2.1)
        ("acme", "c", "l") = 1 :=
  c4_amended ⟨"acme", "c", "l", [], 0, 9⟩ 1 2 []
    (by decide) (Or.inl (by decide)) (by decide) (by decide) (by decide)
    (fun _ r hr => absurd hr (by simp))
    (fun r hr => absurd hr (by simp))

/-- The pre-save middleware never touches brand, code or link. -/
theorem tripleOf_preSaveHook (r : Referral) (b1 b2 : Bool) (now : Int) :
    tripleOf (preSaveHook r b1 b2 now) = tripleOf r := by
  unfold preSaveHook
  split <;> rfl

/-- Appending a record whose triple is held by no stored record preserves
triple-distinctness. -/
theorem distinctTriples_append (store : List Referral) (x : Referral)
    (h : distinctTriples store)
    (hx : ∀ r ∈ store, tripleOf r ≠ tripleOf x) :
    distinctTriples (store ++ [x]) := by
  intro i j hi hj hij
  have hi0 : i < store.length + 1 := by simpa using hi
  have hj0 : j < store.length + 1 := by simpa using hj
  rcases Nat.lt_or_ge i store.length with hi2 | hi2 <;>
    rcases Nat.lt_or_ge j store.length with hj2 | hj2
  · rw [List.getElem_append_left hi2, List.getElem_append_left hj2]
    exact h i j hi2 hj2 hij
  · have hj3 : j = store.length := by omega
    rw [List.getElem_append_left hi2,
      List.getElem_concat_length store x j hj3]
    exact hx _ (List.getElem_mem hi2)
  · have hi3 : i = store.length := by omega
    rw [List.getElem_concat_length store x i hi3,
      List.getElem_append_left hj2]
    exact fun he => hx _ (List.getElem_mem hj2) he.symm
  · omega

/-- Overwriting position `i` with a record whose triple is held by no other
stored record preserves triple-distinctness. -/
theorem distinctTriples_set (store : List Referral) (i : Nat) (x : Referral)
    (h : distinctTriples store)
    (hx : ∀ j, (hj : j < store.length) → j ≠ i →
      tripleOf store[j] ≠ tripleOf x) :
    distinctTriples (store.set i x) := by
  intro a b ha hb hab
  have ha0 : a < store.length := by simpa using ha
  have hb0 : b < store.length := by simpa using hb
  by_cases hai : i = a <;> by_cases hbi : i = b
  · omega
  · subst hai
    rw [List.getElem_set_self, List.getElem_set_ne hbi]
    exact fun he => hx b hb0 (fun hbe => hbi hbe.symm) he.symm
  · subst hbi
    rw [List.getElem_set_self, List.getElem_set_ne hai]
    exact hx a ha0 (fun hae => hai hae.symm)
  · rw [List.getElem_set_ne hai, List.getElem_set_ne hbi]
    exact h a b ha0 hb0 hab

/-- Reading back a false `anyOtherShares` check: no record at an index other
than `i` carries the triple. -/
theorem anyOtherShares_eq_false (store : List Referral) (i : Nat)
    (t : String × String × String) (h : anyOtherShares store i t = false) :
    ∀ j, (hj : j < store.length) → j ≠ i → tripleOf store[j] ≠ t := by
  induction store generalizing i with
  | nil => intro j hj; simp at hj
  | cons r rest ih =>
    intro j hj hji
    cases i with
    | zero =>
      unfold anyOtherShares at h
      cases j with
      | zero => exact absurd rfl hji
      | succ k =>
        have hk : k < rest.length := by simpa using hj
        have := List.any_eq_false.mp h rest[k] (List.getElem_mem hk)
        simpa using this
    | succ m =>
      unfold anyOtherShares at h
      rw [Bool.or_eq_false_iff] at h
      cases j with
      | zero => simpa using h.1
      | succ k =>
        have hk : k < rest.length := by simpa using hj
        have hkm : k ≠ m := fun he => hji (by rw [he])
        have := ih m h.2 k hk hkm
        simpa using this

/-- A successful `saveNewDoc` appends one record; its triple is the saved
document's, and no previously stored record carried it. -/
theorem saveNewDoc_some (store : List Referral) (r : Referral) (now : Int)
    (store2 : List Referral) (h : saveNewDoc store r now = some store2) :
    ∃ r2, store2 = store ++ [r2] ∧ tripleOf r2 = tripleOf r ∧
      ∀ x ∈ store, tripleOf x ≠ tripleOf r := by
  unfold saveNewDoc insertUnique at h
  split at h
  case isTrue hvd =>
    split at h
    case isTrue hany => exact absurd h (by simp)
    case isFalse hany =>
      refine ⟨preSaveHook r (decide (r.code ≠ "")) (decide (r.link ≠ "")) now,
        ?_, tripleOf_preSaveHook r _ _ now, ?_⟩
      · injection h with h2
        exact h2.symm
      · intro x hx
        simp only [Bool.not_eq_true, List.any_eq_false] at hany
        have := hany x hx
        simpa [tripleOf_preSaveHook] using this
  case isFalse hvd => exact absurd h (by simp)

/-- A successful `saveExistingDoc` overwrites position `i` with a record
whose triple no other stored record carries. -/
theorem saveExistingDoc_some (store : List Referral) (i : Nat) (r2 : Referral)
    (mc ml : Bool) (now : Int) (store2 : List Referral)
    (h : saveExistingDoc store i r2 mc ml now = some store2) :
    ∃ r3, store2 = store.set i r3 ∧
      anyOtherShares store i (tripleOf r3) = false := by
  unfold saveExistingDoc at h
  split at h
  case isTrue hvd =>
    dsimp only at h
    split at h
    case isTrue hany => exact absurd h (by simp)
    case isFalse hany =>
      refine ⟨preSaveHook r2 mc ml now, ?_, ?_⟩
      · injection h with h2
        exact h2.symm
      · simpa [Bool.not_eq_true] using hany
  case isFalse hvd => exact absurd h (by simp)

/-- C5: every store-writing operation — the pipeline's save, the POST
endpoint's insert, and the PUT endpoint's update — preserves the invariant
that no two persisted records share the same (brand, code, link) triple,
because every write path goes through the unique-index check. -/
theorem c5_writes_preserve_unique_triples (w : StoreWrite)
    (store : List Referral) (h : distinctTriples store) :
    distinctTriples (applyWrite w store) := by
  cases w with
  | pipelineSave rdOpt now =>
    show distinctTriples (saveReferralToDb rdOpt now store).2.1
    unfold saveReferralToDb
    cases rdOpt with
    | none => exact h
    | some rd =>
      dsimp only
      split
      · exact h
      · split
        · exact h
        · cases hs : saveNewDoc store (scraperDoc rd now) now with
          | none => exact h
          | some s2 =>
            obtain ⟨r2, rfl, htr, hfresh⟩ := saveNewDoc_some _ _ _ _ hs
            exact distinctTriples_append store r2 h
              (fun x hx => htr ▸ hfresh x hx)
  | apiInsert b now =>
    show distinctTriples (postReferral b now store)
    unfold postReferral
    split
    · exact h
    · split
      · exact h
      · split
        · exact h
        · cases hs : saveNewDoc store (docOfBody b now) now with
          | none => exact h
          | some s2 =>
            obtain ⟨r2, rfl, htr, hfresh⟩ := saveNewDoc_some _ _ _ _ hs
            exact distinctTriples_append store r2 h
              (fun x hx => htr ▸ hfresh x hx)
  | apiUpdate i b now =>
    show distinctTriples (putReferral i b now store)
    unfold putReferral
    split
    · exact h
    · split
      · exact h
      · split
        · exact h
        · cases hr : store[i]? with
          | none => exact h
          | some r =>
            dsimp only
            cases hs : saveExistingDoc store i (applyBody r b)
                (match b.code with
                  | some c => decide (trimStr c ≠ r.code)
                  | none => false)
                (match b.link with
                  | some l => decide (trimStr l ≠ r.link)
                  | none => false) now with
            | none => exact h
            | some s2 =>
              obtain ⟨r3, rfl, hany⟩ := saveExistingDoc_some _ _ _ _ _ _ _ hs
              exact distinctTriples_set store i r3 h
                (anyOtherShares_eq_false store i _ hany)

/-- Witness for C5: one pipeline save into the empty store (which trivially
satisfies the invariant) yields a store satisfying it. -/
theorem c5_witness :
    distinctTriples
      (applyWrite (.pipelineSave (some ⟨"acme", "c", "l", [], 0, 9⟩) 0) []) :=
  c5_writes_preserve_unique_triples
    (.pipelineSave (some ⟨"acme", "c", "l", [], 0, 9⟩) 0) []
    (by intro i j hi hj hij; simp at hi)

/-- A two-post batch trace unfolded: call, delay, rest of the batch. -/
theorem processBatch_cons_cons (R : Nat) (p q : α) (r2 : List α) :
    processBatchWithGemini R (p :: q :: r2)
      = Ev.call p :: Ev.wait (BATCH_DELAY R)
          :: processBatchWithGemini R (q :: r2) := rfl

/-- Invocations recorded in a trace concatenation. -/
theorem callsOf_append (l1 l2 : List (Ev α)) :
    callsOf (l1 ++ l2) = callsOf l1 ++ callsOf l2 := by
  induction l1 with
  | nil => rfl
  | cons e r ih => cases e <;> simp [callsOf, ih]

/-- One batch invokes the Extraction Client on exactly its posts, in order. -/
theorem callsOf_processBatch (R : Nat) (l : List α) :
    callsOf (processBatchWithGemini R l) = l := by
  induction l with
  | nil => rfl
  | cons p rest ih =>
    cases rest with
    | nil => rfl
    | cons q r2 =>
      rw [processBatch_cons_cons]
      show p :: callsOf (processBatchWithGemini R (q :: r2)) = p :: q :: r2
      rw [ih]

/-- A non-empty batch trace opens with the invocation of its first post. -/
theorem processBatch_head (R : Nat) (p : α) (rest : List α) :
    ∃ t, processBatchWithGemini R (p :: rest) = Ev.call p :: t := by
  cases rest with
  | nil => exact ⟨[], rfl⟩
  | cons q r2 => exact ⟨_, rfl⟩

/-- A non-empty batch trace closes with an invocation — no trailing pause. -/
theorem processBatch_last (R : Nat) (l : List α) (hl : l ≠ []) :
    ∃ p, (processBatchWithGemini R l).getLast? = some (Ev.call p) := by
  induction l with
  | nil => exact absurd rfl hl
  | cons p rest ih =>
    cases rest with
    | nil => exact ⟨p, rfl⟩
    | cons q r2 =>
      obtain ⟨p2, hp2⟩ := ih (by simp)
      refine ⟨p2, ?_⟩
      rw [processBatch_cons_cons]
      obtain ⟨t, ht⟩ := processBatch_head R q r2
      rw [ht] at hp2 ⊢
      rw [List.getLast?_cons_cons, List.getLast?_cons_cons]
      exact hp2

/-- Within one batch every pause between consecutive invocations is exactly
the per-call delay. -/
theorem gaps_processBatch (R : Nat) (l : List α) :
    callGaps (processBatchWithGemini R l)
      = List.replicate (l.length - 1) (BATCH_DELAY R) := by
  induction l with
  | nil => rfl
  | cons p rest ih =>
    cases rest with
    | nil => rfl
    | cons q r2 =>
      rw [processBatch_cons_cons]
      obtain ⟨t, ht⟩ := processBatch_head R q r2
      rw [ht] at ih ⊢
      simp only [callGaps, gapsFrom, Nat.zero_add] at ih ⊢
      rw [ih]
      simp [List.replicate_succ]

/-- Splitting the pause list of a trace at an inter-batch pause, when the
left part ends with an invocation and the right part opens with one. -/
theorem gapsFrom_boundary (w : Nat) (q : α) (t2 : List (Ev α)) :
    ∀ (t1 : List (Ev α)) (acc : Nat) (p : α),
      t1.getLast? = some (Ev.call p) →
      gapsFrom acc (t1 ++ Ev.wait w :: Ev.call q :: t2)
        = gapsFrom acc t1 ++ w :: gapsFrom 0 t2 := by
  intro t1
  induction t1 with
  | nil => intro acc p hp; simp at hp
  | cons e r ih =>
    intro acc p hp
    cases r with
    | nil =>
      cases e with
      | wait d => simp [List.getLast?] at hp
      | call p0 => simp [gapsFrom]
    | cons e2 r2 =>
      have hp2 : (e2 :: r2).getLast? = some (Ev.call p) := by
        rwa [List.getLast?_cons_cons] at hp
      cases e with
      | wait d =>
        simp only [List.cons_append, gapsFrom]
        exact ih (acc + d) p hp2
      | call p0 =>
        simp only [List.cons_append, gapsFrom]
        exact congrArg (fun l => acc :: l) (ih 0 p hp2)

/-- The pauses of `T1 ++ wait w :: T2`, with `T1` opening and closing on an
invocation and `T2` opening on one, are those of `T1`, then `w`, then those
of `T2`. -/
theorem callGaps_boundary (w : Nat) (p q : α) (t t2 : List (Ev α)) (pl : α)
    (hlast : (Ev.call p :: t).getLast? = some (Ev.call pl)) :
    callGaps ((Ev.call p :: t) ++ Ev.wait w :: Ev.call q :: t2)
      = callGaps (Ev.call p :: t) ++ w :: callGaps (Ev.call q :: t2) := by
  cases t with
  | nil => simp [callGaps, gapsFrom]
  | cons e r =>
    have hp2 : (e :: r).getLast? = some (Ev.call pl) := by
      rwa [List.getLast?_cons_cons] at hlast
    simp only [List.cons_append, callGaps]
    exact gapsFrom_boundary w q t2 (e :: r) 0 pl hp2

/-- A non-empty run's trace opens with the invocation of the first post. -/
theorem processPostsGo_head (R B : Nat) (hB : 1 ≤ B) (fuel : Nat)
    (p : α) (rest : List α) (hf : 1 ≤ fuel) :
    ∃ t, processPostsInBatchesGo R B fuel (p :: rest) = Ev.call p :: t := by
  cases fuel with
  | zero => omega
  | succ f =>
    unfold processPostsInBatchesGo
    by_cases hlen : (p :: rest).length ≤ B
    · rw [if_pos hlen]
      exact processBatch_head R p rest
    · rw [if_neg hlen]
      cases B with
      | zero => omega
      | succ B2 =>
        rw [List.take_succ_cons]
        obtain ⟨t, ht⟩ := processBatch_head R p (rest.take B2)
        rw [ht]
        exact ⟨_, rfl⟩

/-- A non-empty run's trace closes with an invocation: no pause follows the
final invocation of the entire run. -/
theorem processPostsGo_last (R B : Nat) (hB : 1 ≤ B) :
    ∀ (fuel : Nat) (posts : List α), posts.length ≤ fuel → posts ≠ [] →
      ∃ p, (processPostsInBatchesGo R B fuel posts).getLast?
        = some (Ev.call p) := by
  intro fuel
  induction fuel with
  | zero =>
    intro posts hf hne
    cases posts with
    | nil => exact absurd rfl hne
    | cons p r => simp at hf
  | succ f ih =>
    intro posts hf hne
    cases posts with
    | nil => exact absurd rfl hne
    | cons p rest =>
      unfold processPostsInBatchesGo
      by_cases hlen : (p :: rest).length ≤ B
      · rw [if_pos hlen]
        exact processBatch_last R (p :: rest) (by simp)
      · rw [if_neg hlen]
        have hdropne : (p :: rest).drop B ≠ [] := by
          rw [Ne, List.drop_eq_nil_iff]
          omega
        have hdlen : ((p :: rest).drop B).length ≤ f := by
          rw [List.length_drop]
          simp only [List.length_cons] at hf hlen ⊢
          omega
        obtain ⟨pl, hpl⟩ := ih ((p :: rest).drop B) hdlen hdropne
        obtain ⟨d, drest, hd⟩ := List.exists_cons_of_ne_nil hdropne
        have hf1 : 1 ≤ f := by
          rw [hd] at hdlen
          simp only [List.length_cons] at hdlen
          omega
        obtain ⟨t2, ht2⟩ := processPostsGo_head R B hB f d drest hf1
        refine ⟨pl, ?_⟩
        rw [List.getLast?_append_of_ne_nil _ (by simp)]
        rw [hd, ht2]
        rw [List.getLast?_cons_cons]
        rw [hd, ht2] at hpl
        exact hpl

/-- The whole run invokes the Extraction Client on exactly its posts, in
order. -/
theorem callsOf_processPostsGo (R B : Nat) (hB : 1 ≤ B) :
    ∀ (fuel : Nat) (posts : List α), posts.length ≤ fuel →
      callsOf (processPostsInBatchesGo R B fuel posts) = posts := by
  intro fuel
  induction fuel with
  | zero =>
    intro posts hf
    cases posts with
    | nil => rfl
    | cons p r => simp at hf
  | succ f ih =>
    intro posts hf
    cases posts with
    | nil => rfl
    | cons p rest =>
      unfold processPostsInBatchesGo
      by_cases hlen : (p :: rest).length ≤ B
      · rw [if_pos hlen]
        exact callsOf_processBatch R (p :: rest)
      · rw [if_neg hlen]
        rw [callsOf_append, callsOf_processBatch]
        have hdlen : ((p :: rest).drop B).length ≤ f := by
          rw [List.length_drop]
          simp only [List.length_cons] at hf hlen ⊢
          omega
        have h2 : callsOf (Ev.wait 5000
            :: processPostsInBatchesGo R B f ((p :: rest).drop B))
            = callsOf (processPostsInBatchesGo R B f ((p :: rest).drop B)) :=
          rfl
        rw [h2, ih _ hdlen]
        exact List.take_append_drop B (p :: rest)

/-- Every pause between consecutive invocations of the whole run is either
the per-call delay (within a batch) or the 5000 ms inter-batch pause. -/
theorem gaps_processPostsGo (R B : Nat) (hB : 1 ≤ B) :
    ∀ (fuel : Nat) (posts : List α), posts.length ≤ fuel →
      ∀ g ∈ callGaps (processPostsInBatchesGo R B fuel posts),
        g = BATCH_DELAY R ∨ g = 5000 := by
  intro fuel
  induction fuel with
  | zero =>
    intro posts hf g hg
    cases posts with
    | nil => simp [processPostsInBatchesGo, callGaps] at hg
    | cons p r => simp at hf
  | succ f ih =>
    intro posts hf g hg
    cases posts with
    | nil => simp [processPostsInBatchesGo, callGaps] at hg
    | cons p rest =>
      unfold processPostsInBatchesGo at hg
      by_cases hlen : (p :: rest).length ≤ B
      · rw [if_pos hlen, gaps_processBatch] at hg
        exact Or.inl (List.eq_of_mem_replicate hg)
      · rw [if_neg hlen] at hg
        cases B with
        | zero => omega
        | succ B2 =>
          rw [List.take_succ_cons] at hg
          have hdropne : (p :: rest).drop (B2 + 1) ≠ [] := by
            rw [Ne, List.drop_eq_nil_iff]
            omega
          have hdlen : ((p :: rest).drop (B2 + 1)).length ≤ f := by
            rw [List.length_drop]
            simp only [List.length_cons] at hf hlen ⊢
            omega
          obtain ⟨d, drest, hd⟩ := List.exists_cons_of_ne_nil hdropne
          have hf1 : 1 ≤ f := by
            rw [hd] at hdlen
            simp only [List.length_cons] at hdlen
            omega
          obtain ⟨t2, ht2⟩ := processPostsGo_head R B2.succ hB f d drest hf1
          obtain ⟨t1, ht1⟩ := processBatch_head R p (rest.take B2)
          obtain ⟨pl, hpl⟩ := processBatch_last R (p :: rest.take B2) (by simp)
          rw [hd, ht2, ht1] at hg
          rw [ht1] at hpl
          rw [callGaps_boundary 5000 p d t1 t2 pl hpl] at hg
          rcases List.mem_append.mp hg with hg1 | hg2
          · rw [← ht1, gaps_processBatch] at hg1
            exact Or.inl (List.eq_of_mem_replicate hg1)
          · rcases List.mem_cons.mp hg2 with hg3 | hg4
            · exact Or.inr hg3
            · have := ih ((p :: rest).drop (B2 + 1)) hdlen g
              rw [hd, ht2] at this
              exact this hg4

/-- Counterexample to C8.  With a rate budget of 10 requests per minute the
per-call delay is ceil(60000/10) = 6000 ms, yet with batch size 1 the run
over two posts pauses only the fixed 5000 ms inter-batch pause between the
two consecutive invocations — less than the per-call delay, contradicting the
claim that every pause between consecutive invocations is at least
ceil(60000/R). -/
theorem c8_counterexample :
    callGaps (processPostsInBatches 10 1 [0, 1]) = [5000] ∧
    5000 < BATCH_DELAY 10 := by decide

/-- C8 amended: for every post list, batch size B ≥ 1 and rate budget R ≥ 1,
the Batch Scheduler invokes the Extraction Client exactly once per post, in
order; every pause between consecutive invocations is either the per-call
delay ceil(60000/R) (within a batch) or the fixed 5000 ms inter-batch pause
(which may be shorter than the per-call delay); and no pause follows the
final invocation of the run.  (R ≥ 1 records that the source's delay is
finite only for a positive rate budget.) -/
theorem c8_amended (R B : Nat) (hR : 1 ≤ R) (hB : 1 ≤ B) (posts : List α) :
    callsOf (processPostsInBatches R B posts) = posts ∧
    (∀ g ∈ callGaps (processPostsInBatches R B posts),
      g = BATCH_DELAY R ∨ g = 5000) ∧
    (posts ≠ [] → ∃ p, (processPostsInBatches R B posts).getLast?
      = some (Ev.call p)) := by
  have hB0 : ¬B = 0 := by omega
  unfold processPostsInBatches
  rw [if_neg hB0]
  exact ⟨callsOf_processPostsGo R B hB posts.length posts le_rfl,
    gaps_processPostsGo R B hB posts.length posts le_rfl,
    fun hne => processPostsGo_last R B hB posts.length posts le_rfl hne⟩

/-- Witness for the amended C8 at a concrete run: three posts, batch size 10,
rate budget 15. -/
theorem c8_amended_witness :
    callsOf (processPostsInBatches 15 10 [0, 1, 2]) = [0, 1, 2] ∧
    (∀ g ∈ callGaps (processPostsInBatches 15 10 [0, 1, 2]),
      g = BATCH_DELAY 15 ∨ g = 5000) ∧
    (([0, 1, 2] : List Nat) ≠ [] →
      ∃ p, (processPostsInBatches 15 10 [0, 1, 2]).getLast?
        = some (Ev.call p)) :=
  c8_amended 15 10 (by omega) (by omega) [0, 1, 2]

end ReferMii
